import Mathlib

/-!
Verification of the network_scanner discovery engine.

Shallow embedding of the core components of the repository:
CIDR-to-host expansion and the sweep coordinator
(`crates/netutils/src/cidrsniffer.rs`), banner normalisation and the
port/UDP scanners (`crates/netutils/src/portscan.rs`), MAC resolution and
parsing (`crates/netutils/src/arp.rs`), and the raw frame transport
(`crates/netutils/src/rawsocket.rs`).

IPv4 addresses are modelled as natural numbers below 2^32, strings as
lists of Lean `Char` (Unicode scalar values, matching Rust `char`), and
MAC addresses as 6-tuples of bytes.  Effects of the networked code
(neighbour-table lookups, TCP connects, UDP replies, raw receives) are
modelled by explicit environment/oracle records that enumerate the
outcomes the OS can hand back; the pure control flow around them is
translated directly from the source.
-/

namespace NetScan

/-! ## Address-Range Expander (cidrsniffer.rs, hosts_from_network) -/

/-- Rust `1u32.wrapping_shl(sh)`: the shift amount is masked to the bit
width (`sh % 32`) and the result kept in 32 bits. -/
def wrappingShl1 (sh : Nat) : Nat := (1 <<< (sh % 32)) % 2 ^ 32

/-- Embedding of `hosts_from_network` (cidrsniffer.rs:9-30).  `base` is the
CIDR's address as a 32-bit integer, `plen` the prefix length (0-32 for a
parsed `Ipv4Network`).  `host_count == 1` yields the point host; otherwise
the code pushes `base+1 ..= base+host_count-2`, i.e. `host_count - 2`
consecutive addresses starting at `base + 1`. -/
def hosts_from_network (base plen : Nat) : List Nat :=
  let host_count := if plen = 32 then 1 else wrappingShl1 (32 - plen)
  if host_count = 1 then [base]
  else List.range' (base + 1) (host_count - 2)

/-! ## MAC resolution (arp.rs, ensure_mac / lookup_mac) -/

/-- A MAC address: the `[u8; 6]` of the source, as a list of 6 byte values. -/
abbrev Mac := List Nat

/-- Type `ArpError` (arp.rs:7-11).  The `io::Error` / message payloads are not
inspected by any caller we verify, so they are dropped. -/
inductive ArpError
  | io : ArpError
  | parse : ArpError
  | toolUnavailable : ArpError
deriving DecidableEq, Repr

/-- What the OS hands back to one invocation of `lookup_mac` (arp.rs:75-119):
for each of the three strategies (`ip neigh`, `/proc/net/arp`, `arp -n`),
the MAC the strategy yields for the queried ip, or `none` when the tool is
missing, exits non-zero, the table has no entry for the ip, or the entry's
MAC token fails `parse_mac` — all of which the source absorbs into
falling through to the next strategy. -/
structure LookupEnv where
  ipNeigh : Option Mac
  procNetArp : Option Mac
  arpDashN : Option Mac

/-- Embedding of `lookup_mac` (arp.rs:75-119): first strategy to yield a
MAC wins; all failures fall through; returns `none` if every strategy
comes up empty. -/
def lookup_mac (env : LookupEnv) : Option Mac :=
  match env.ipNeigh with
  | some m => some m
  | none =>
    match env.procNetArp with
    | some m => some m
    | none =>
      match env.arpDashN with
      | some m => some m
      | none => none

/-- The external world seen by one `ensure_mac` call (arp.rs:123-181):
the neighbour-table state at the first lookup, the outcome of the
`arping` probe (`some m` only when the command ran, exited successfully
and a token of its stdout parsed as a MAC), and the table state at the
second lookup after the `ping` fallback. -/
structure ArpEnv where
  firstLookup : LookupEnv
  arping : Option Mac
  afterPing : LookupEnv

/-- Embedding of `ensure_mac` (arp.rs:123-181) on Linux: neighbour-table
lookup, else (when probing) `arping`, else `ping` + second lookup; every
path ends in `Ok`. -/
def ensure_mac (env : ArpEnv) (performProbe : Bool) : Except ArpError (Option Mac) :=
  match lookup_mac env.firstLookup with
  | some mac => .ok (some mac)
  | none =>
    if !performProbe then .ok none
    else
      match env.arping with
      | some mac => .ok (some mac)
      | none =>
        match lookup_mac env.afterPing with
        | some mac => .ok (some mac)
        | none => .ok none

/-! ## Sweep Coordinator (cidrsniffer.rs, scan_cidr) -/

/-- Rust `slice::chunks(k)`: contiguous chunks of size `k`, last one
possibly shorter; the empty slice yields no chunks.  (`scan_cidr` only
calls it with `k ≥ 1` and a nonempty slice.) -/
def chunksOf (k : Nat) (l : List α) : List (List α) :=
  match l with
  | [] => []
  | a :: t => if k = 0 then [] else (a :: t).take k :: chunksOf k ((a :: t).drop k)
termination_by l.length
decreasing_by simp [List.length_drop]; omega

/-- The body of one worker loop iteration (cidrsniffer.rs:61-73): resolve
the host and send exactly one `(ip, mac?)` message; `Ok(None)` and
`Err(_)` both send `(ip, None)`. -/
def resolveTarget (resolve : Nat → Except ArpError (Option Mac)) (ip : Nat) :
    Nat × Option Mac :=
  match resolve ip with
  | .ok (some mac) => (ip, some mac)
  | .ok none => (ip, none)
  | .error _ => (ip, none)

/-- The chunk handed to each spawned worker (cidrsniffer.rs:49-55):
`workers` is coerced to at least 1 and the hosts are split into chunks of
size `ceil(len / workers)`. -/
def workerChunks (hosts : List Nat) (workers : Nat) : List (List Nat) :=
  chunksOf ((hosts.length + max 1 workers - 1) / max 1 workers) hosts

/-- Per-worker message streams on the result channel: each worker sends
its own chunk's results in chunk order. -/
def workerStreams (resolve : Nat → Except ArpError (Option Mac))
    (hosts : List Nat) (workers : Nat) : List (List (Nat × Option Mac)) :=
  (workerChunks hosts workers).map (List.map (resolveTarget resolve))

/-- Relation `Sched streams out`: `out` is a complete interleaving of the message
streams — the channel delivers, one at a time, the head message of some
stream, until every stream is exhausted.  This is exactly the freedom the
mpsc result channel of `scan_cidr` has. -/
inductive Sched : List (List α) → List α → Prop
  | done (ls : List (List α)) (h : ∀ l ∈ ls, l = []) : Sched ls []
  | step (pre post : List (List α)) (x : α) (rest out : List α)
      (h : Sched (pre ++ rest :: post) out) :
      Sched (pre ++ (x :: rest) :: post) (x :: out)

/-- Observable outcomes of `scan_cidr` (cidrsniffer.rs:38-92).  `parsed`
is the result of `cidr.parse::<Ipv4Network>()` — the parser lives in the
external `ipnetwork` crate, so it is abstracted to its result: `none` for
a malformed CIDR, `some (base, plen)` for a parsed network.  On parse
failure the function returns the invalid-cidr error at once; on an empty
host list it returns `Ok([])`; otherwise it blocks for exactly
`hosts.len()` channel messages, so the result is a complete interleaving
of the worker streams. -/
def ScanCidrOutcome (parsed : Option (Nat × Nat)) (workers : Nat)
    (resolve : Nat → Except ArpError (Option Mac))
    (res : Except String (List (Nat × Option Mac))) : Prop :=
  match parsed with
  | none => res = .error "invalid cidr"
  | some (base, plen) =>
    let hosts := hosts_from_network base plen
    if hosts = [] then res = .ok []
    else ∃ out, Sched (workerStreams resolve hosts workers) out ∧ res = .ok out

/-! ## Raw Frame Transport (rawsocket.rs) -/

/-- Type `RawSocketError` (rawsocket.rs:7-14); the payloads `recv_with_timeout`
can construct are kept, the others are irrelevant to the claims. -/
inductive RawSocketError
  | interfaceNotFound
  | unsupportedChannel
  | io
  | sendError (msg : String)
  | recvError (msg : String)
deriving DecidableEq, Repr

/-- The receiver-ownership state of a `RawSocket`: `rx : Option<Box<dyn
DataLinkReceiver>>` (rawsocket.rs:35).  Only ownership matters to the
verified behaviour, so `rxHeld` is `self.rx.is_some()`. -/
structure RawSocketState where
  rxHeld : Bool
deriving DecidableEq, Repr

/-- The outcome of racing the spawned blocking `rx.next()` against the
timer (rawsocket.rs:83-123): a frame arrives within the timeout, the
receive fails within the timeout, or the timer fires first. -/
inductive RecvEvent
  | frame (bytes : List Nat)
  | recvFail (msg : String)
  | timeout

/-- Embedding of `recv_with_timeout` (rawsocket.rs:70-124) as a state
transition.  The receiver is taken out of `self.rx` (a distinct
`RecvError` if it is already on loan); on a frame or a receive failure
the spawned thread hands it back and it is restored; on timeout the
thread still owns it, `self.rx` stays `None`, and `Ok(None)` is
returned. -/
def recv_with_timeout (s : RawSocketState) (ev : RecvEvent) :
    RawSocketState × Except RawSocketError (Option (List Nat)) :=
  if s.rxHeld then
    match ev with
    | .frame bytes => (⟨true⟩, .ok (some bytes))
    | .recvFail msg => (⟨true⟩, .error (.recvError ("recv error: " ++ msg)))
    | .timeout => (⟨false⟩, .ok none)
  else (s, .error (.recvError "Receiver already taken"))

/-! ## Banner normalisation (portscan.rs, normalize_banner)

Strings are modelled as lists of `Char` (Unicode scalar values, as Rust
`char`); Rust `str::len` and byte slicing are modelled through the UTF-8
size of each char. -/

/-- Rust `char::is_whitespace`: the Unicode `White_Space` property. -/
def isRustWhitespace (c : Char) : Bool :=
  decide (c.toNat = 0x20 ∨ (0x09 ≤ c.toNat ∧ c.toNat ≤ 0x0D) ∨ c.toNat = 0x85 ∨
    c.toNat = 0xA0 ∨ c.toNat = 0x1680 ∨ (0x2000 ≤ c.toNat ∧ c.toNat ≤ 0x200A) ∨
    c.toNat = 0x2028 ∨ c.toNat = 0x2029 ∨ c.toNat = 0x202F ∨ c.toNat = 0x205F ∨
    c.toNat = 0x3000)

/-- Rust `char::is_control`: the Unicode `Cc` category. -/
def isRustControl (c : Char) : Bool :=
  decide (c.toNat ≤ 0x1F ∨ (0x7F ≤ c.toNat ∧ c.toNat ≤ 0x9F))

/-- The filter of portscan.rs:87: `c.is_ascii() && !c.is_control()`. -/
def keepChar (c : Char) : Bool := decide (c.toNat ≤ 0x7F) && !isRustControl c

/-- Rust `str::trim`: strip leading and trailing whitespace. -/
def rustTrim (l : List Char) : List Char :=
  ((l.dropWhile isRustWhitespace).reverse.dropWhile isRustWhitespace).reverse

/-- Rust `str::split_whitespace`: the maximal whitespace-free runs, in
order, empty runs discarded. -/
def splitWs (l : List Char) : List (List Char) :=
  match l with
  | [] => []
  | c :: cs =>
    if isRustWhitespace c then splitWs cs
    else ((c :: cs).takeWhile fun d => !isRustWhitespace d)
      :: splitWs ((c :: cs).dropWhile fun d => !isRustWhitespace d)
termination_by l.length
decreasing_by
  · simp
  · rename_i hc
    have hc' : isRustWhitespace c = false := Bool.not_eq_true _ |>.mp hc
    simp [List.dropWhile_cons, hc']
    exact Nat.lt_succ_of_le
      (by simpa using (List.dropWhile_sublist (l := cs) fun d => !isRustWhitespace d).length_le)

/-- Rust `Vec::join(sep)` on string slices. -/
def rustJoin (sep : List Char) : List (List Char) → List Char
  | [] => []
  | [w] => w
  | w :: ws => w ++ sep ++ rustJoin sep ws

/-- UTF-8 byte count of one char; Rust `str::len` is the sum of these. -/
def utf8Len (c : Char) : Nat :=
  if c.toNat ≤ 0x7F then 1 else if c.toNat ≤ 0x7FF then 2
  else if c.toNat ≤ 0xFFFF then 3 else 4

/-- Rust `str::len`: the UTF-8 byte length. -/
def byteLen (l : List Char) : Nat := (l.map utf8Len).sum

/-- Rust byte slicing `s[..n]` read as chars: the longest char prefix of
UTF-8 size ≤ n.  (`normalize_banner` slices only at n = 200, which the
safety theorem shows is always a char boundary of its argument, so this
total model agrees with the panicking Rust slice there.) -/
def takeBytes (n : Nat) : List Char → List Char
  | [] => []
  | c :: cs => if utf8Len c ≤ n then c :: takeBytes (n - utf8Len c) cs else []

/-- The `collapsed` intermediate of `normalize_banner` (portscan.rs:84-89):
trim, keep ascii non-control chars, split on whitespace, join with single
spaces. -/
def collapsedOf (s : List Char) : List Char :=
  rustJoin [' '] (splitWs ((rustTrim s).filter keepChar))

/-- Embedding of `normalize_banner` (portscan.rs:83-95). -/
def normalize_banner (s : List Char) : List Char :=
  let collapsed := collapsedOf s
  if 200 < byteLen collapsed then takeBytes 200 collapsed else collapsed

/-! ## Port Scanner (portscan.rs, scan_host_ports_async / probe_udp_async) -/

/-- Struct `PortResult` (portscan.rs:14-20). -/
structure PortResult where
  port : Nat
  proto : String
  «open» : Bool
  banner : Option (List Char)
  rtt_ms : Option Nat
deriving DecidableEq, Repr

/-- What the network hands one port's probe task (portscan.rs:110-132):
`none` when the TCP connect fails or the connect timeout fires;
`some (readRes, rtt)` when the connect succeeds after `rtt` ms, where
`readRes` is the banner read within its 300 ms window — `some chars`
(the lossily decoded bytes) for a read of `n > 0` bytes, `none` for a
0-byte read, a read error or the 300 ms read timeout. -/
def ProbeEnv := Nat → Option (Option (List Char) × Nat)

/-- One port's task body in `scan_host_ports_async` (portscan.rs:110-132). -/
def probe_port (env : ProbeEnv) (port : Nat) : PortResult :=
  match env port with
  | some (readRes, rtt) =>
    { port := port, proto := "tcp", «open» := true,
      banner := readRes.map normalize_banner, rtt_ms := some rtt }
  | none =>
    { port := port, proto := "tcp", «open» := false,
      banner := none, rtt_ms := none }

/-- Embedding of `scan_host_ports_async` (portscan.rs:98-143): one task
per requested port, spawned and awaited in port order, each contributing
exactly one `PortResult`. -/
def scan_host_ports (env : ProbeEnv) (ports : List Nat) : List PortResult :=
  ports.map (probe_port env)

/-- The network's behaviour toward one UDP probe (portscan.rs:158-177):
whether the ephemeral bind succeeded, and the reply datagram payload that
arrives within the timeout, if any. -/
structure UdpEnv where
  bindOk : Bool
  reply : Option (List Nat)

/-- Embedding of `probe_udp_async` (portscan.rs:158-177): bind an
ephemeral socket (failure yields `(ip, None)`), send the empty datagram,
then wait for a reply; `recv_from` fills a 1500-byte buffer, and only a
reply with `n > 0` received bytes is reported. -/
def probe_udp (env : UdpEnv) (ip : Nat) : Nat × Option (List Nat) :=
  if env.bindOk then
    match env.reply with
    | some payload =>
      if 0 < min payload.length 1500 then (ip, some (payload.take 1500))
      else (ip, none)
    | none => (ip, none)
  else (ip, none)

/-! ## MAC parsing and formatting (arp.rs parse_mac, discovery lib.rs) -/

/-- The hex digit char `{:x}` emits for a value below 16 (lowercase). -/
def hexDigit (n : Nat) : Char := if n < 10 then Char.ofNat (48 + n) else Char.ofNat (87 + n)

/-- Rust `format!("{:02x}", b)` for a byte value: exactly two hex digits. -/
def formatByteHex (b : Nat) : List Char := [hexDigit (b / 16), hexDigit (b % 16)]

/-- The MAC formatting of `LiveArpDiscover::discover` (discovery
lib.rs:140-145), generalised over the delimiter so that both the colon-
and hyphen-delimited forms of the round-trip property are covered (the
source emits `:`). -/
def format_mac (d : Char) (m : List Nat) : List Char :=
  rustJoin [d] (m.map formatByteHex)

/-- Value of one hex digit, as `u8::from_str_radix(_, 16)` reads it. -/
def hexVal (c : Char) : Option Nat :=
  if 48 ≤ c.toNat ∧ c.toNat ≤ 57 then some (c.toNat - 48)
  else if 97 ≤ c.toNat ∧ c.toNat ≤ 102 then some (c.toNat - 87)
  else if 65 ≤ c.toNat ∧ c.toNat ≤ 70 then some (c.toNat - 55)
  else none

/-- Rust `u8::from_str_radix(p, 16)`: optional leading `+`, then at least one
hex digit, accumulated left to right, failing on overflow past a byte. -/
def parseByteHex (l : List Char) : Option Nat :=
  let digits := match l with
    | '+' :: rest => rest
    | _ => l
  match digits with
  | [] => none
  | _ =>
    digits.foldl
      (fun acc c =>
        match acc, hexVal c with
        | some a, some v => if a * 16 + v < 256 then some (a * 16 + v) else none
        | _, _ => none)
      (some 0)

/-- Rust `str::split` on a char predicate: empty parts are kept, and the
empty string yields one empty part. -/
def splitDelim (p : Char → Bool) : List Char → List (List Char)
  | [] => [[]]
  | c :: cs =>
    if p c then [] :: splitDelim p cs
    else
      match splitDelim p cs with
      | [] => [[c]]
      | h :: t => (c :: h) :: t

/-- The part-parsing loop of `parse_mac` (arp.rs:190-197): each of the six
parts must parse as a hex byte, else the whole parse fails. -/
def parseMacParts : List (List Char) → Option (List Nat)
  | [] => some []
  | p :: ps =>
    match parseByteHex p, parseMacParts ps with
    | some b, some bs => some (b :: bs)
    | _, _ => none

/-- Embedding of `parse_mac` (arp.rs:184-199): trim, split on `:` or `-`,
require exactly 6 parts, parse each as a hex byte. -/
def parse_mac (s : List Char) : Option (List Nat) :=
  let cleaned := rustTrim s
  let parts := splitDelim (fun c => c == ':' || c == '-') cleaned
  if parts.length = 6 then parseMacParts parts else none

/-! ## Helper lemmas -/

theorem flatten_chunksOf (k : Nat) (hk : k ≠ 0) (l : List α) :
    (chunksOf k l).flatten = l := by
  match l with
  | [] => simp [chunksOf]
  | a :: t =>
    rw [chunksOf, if_neg hk, List.flatten_cons, flatten_chunksOf k hk (List.drop k (a :: t))]
    exact List.take_append_drop k (a :: t)
termination_by l.length
decreasing_by simp [List.length_drop]; omega

theorem Sched.perm {ls : List (List α)} {out : List α} (h : Sched ls out) :
    List.Perm out ls.flatten := by
  induction h with
  | done ls h =>
    have : ls.flatten = [] := by
      simp only [List.flatten_eq_nil_iff]
      exact h
    rw [this]
  | step pre post x rest out _ ih =>
    have h1 : (pre ++ (x :: rest) :: post).flatten
        = pre.flatten ++ x :: (rest ++ post.flatten) := by simp
    have h2 : (pre ++ rest :: post).flatten
        = pre.flatten ++ (rest ++ post.flatten) := by simp
    rw [h1]
    exact ((ih.trans (by rw [h2])).cons x).trans List.perm_middle.symm

theorem workerStreams_flatten (resolve : Nat → Except ArpError (Option Mac))
    (hosts : List Nat) (workers : Nat) (hne : hosts ≠ []) :
    (workerStreams resolve hosts workers).flatten
      = hosts.map (resolveTarget resolve) := by
  unfold workerStreams workerChunks
  have hk : (hosts.length + max 1 workers - 1) / max 1 workers ≠ 0 := by
    have hw : 1 ≤ max 1 workers := le_max_left 1 workers
    have hl : 1 ≤ hosts.length := List.length_pos.mpr hne
    have : 1 ≤ (hosts.length + max 1 workers - 1) / max 1 workers := by
      rw [Nat.le_div_iff_mul_le (by omega)]
      omega
    omega
  rw [← List.map_flatten, flatten_chunksOf _ hk]

theorem wrappingShl1_eq_pow (plen : Nat) (h1 : 1 ≤ plen) (h2 : plen < 32) :
    wrappingShl1 (32 - plen) = 2 ^ (32 - plen) := by
  have hs : (32 - plen) % 32 = 32 - plen := Nat.mod_eq_of_lt (by omega)
  unfold wrappingShl1
  rw [hs, Nat.shiftLeft_eq, one_mul,
    Nat.mod_eq_of_lt (Nat.pow_lt_pow_right (by norm_num) (by omega))]

/-! ## Theorems about the Address-Range Expander -/

/-- C2, counterexample: for the valid CIDR `0.0.0.0/0` the claim demands
`2^32 - 2` addresses strictly between network and broadcast, but
`1u32.wrapping_shl(32)` masks the shift to 0, so `host_count == 1` and
the expander returns the single address `0.0.0.0` itself. -/
theorem hosts_from_network_slash_zero_cex :
    hosts_from_network 0 0 = [0] ∧ (hosts_from_network 0 0).length ≠ 2 ^ 32 - 2 := by
  constructor
  · decide
  · decide

/-- C2 (amended): for a CIDR in network-address form (host bits zero,
range inside the 32-bit space): a /32 yields exactly the network address;
for `1 ≤ p < 32` the expander yields exactly the `2^(32-p) - 2` addresses
strictly between the network address `base` and the broadcast address
`base + 2^(32-p) - 1`, in ascending order, hence the empty sequence when
`2^(32-p) ≤ 2`; and for `p = 0` the 32-bit wrapping shift makes
`host_count = 1`, so the expander yields exactly the network address
itself rather than the `2^32 - 2` interior addresses. -/
theorem hosts_from_network_spec_amended (base plen : Nat) (hp : plen ≤ 32)
    (hbase : base + 2 ^ (32 - plen) ≤ 2 ^ 32) (halign : base % 2 ^ (32 - plen) = 0) :
    (plen = 32 → hosts_from_network base plen = [base]) ∧
    (plen = 0 → hosts_from_network base plen = [base]) ∧
    (1 ≤ plen → plen < 32 →
      (hosts_from_network base plen).length = 2 ^ (32 - plen) - 2 ∧
      (2 ^ (32 - plen) ≤ 2 → hosts_from_network base plen = []) ∧
      (hosts_from_network base plen).Pairwise (· < ·) ∧
      (∀ a, a ∈ hosts_from_network base plen ↔
        base < a ∧ a < base + 2 ^ (32 - plen) - 1)) := by
  refine ⟨fun h32 => by simp [hosts_from_network, h32], fun h0 => by
    subst h0; simp [hosts_from_network, wrappingShl1], fun h1 hlt => ?_⟩
  have hc : wrappingShl1 (32 - plen) = 2 ^ (32 - plen) := wrappingShl1_eq_pow plen h1 hlt
  have hge2 : 2 ≤ 2 ^ (32 - plen) := by
    calc 2 = 2 ^ 1 := rfl
    _ ≤ 2 ^ (32 - plen) := Nat.pow_le_pow_right (by norm_num) (by omega)
  have hform : hosts_from_network base plen
      = List.range' (base + 1) (2 ^ (32 - plen) - 2) := by
    simp only [hosts_from_network]
    rw [if_neg (show plen ≠ 32 by omega), hc,
      if_neg (show (2 : Nat) ^ (32 - plen) ≠ 1 by omega)]
  refine ⟨by simp [hform], fun hle => ?_, ?_, fun a => ?_⟩
  · have : 2 ^ (32 - plen) = 2 := le_antisymm hle hge2
    simp [hform, this]
  · rw [hform]
    exact List.pairwise_lt_range' _ _
  · rw [hform, List.mem_range'_1]
    omega

/-- C2 witness: the aligned network `192.168.0.0/30` has exactly
`2^2 - 2 = 2` usable hosts. -/
theorem hosts_from_network_spec_amended_witness :
    (hosts_from_network 0xC0A80000 30).length = 2 ^ (32 - 30) - 2 :=
  ((hosts_from_network_spec_amended 0xC0A80000 30 (by norm_num) (by norm_num)
    (by norm_num)).2.2 (by norm_num) (by norm_num)).1

/-! ## Theorems about the Sweep Coordinator -/

/-- C1: for every parsed CIDR, every worker count (including 0 and counts
above the host count) and every resolver behaviour, any result list
`scan_cidr` can deliver has exactly one `(address, optional MAC)` pair per
expander address — it is a permutation of the per-host resolution list,
so nothing is skipped or duplicated and the length equals the expander's
output length. -/
theorem scan_cidr_one_result_per_host (base plen workers : Nat)
    (resolve : Nat → Except ArpError (Option Mac))
    (res : Except String (List (Nat × Option Mac)))
    (h : ScanCidrOutcome (some (base, plen)) workers resolve res) :
    ∃ out, res = .ok out ∧
      out.length = (hosts_from_network base plen).length ∧
      List.Perm out ((hosts_from_network base plen).map (resolveTarget resolve)) := by
  unfold ScanCidrOutcome at h
  by_cases hemp : hosts_from_network base plen = []
  · simp only [hemp, if_pos rfl] at h
    exact ⟨[], by simpa using h, by simp [hemp]⟩
  · simp only [if_neg hemp] at h
    obtain ⟨out, hs, hres⟩ := h
    have hflat := workerStreams_flatten resolve (hosts_from_network base plen) workers hemp
    have hperm : List.Perm out ((hosts_from_network base plen).map (resolveTarget resolve)) :=
      hs.perm.trans (by rw [hflat])
    exact ⟨out, hres, by rw [hperm.length_eq, List.length_map], hperm⟩

/-- C1 witness: `192.168.0.0/30` with `workers = 0` (coerced to 1) and a
resolver that always reports no MAC: the delivered list has one pair per
expander host. -/
theorem scan_cidr_one_result_per_host_witness :
    ∃ out, (Except.ok [(0xC0A80001, (none : Option Mac)), (0xC0A80002, none)]
        : Except String (List (Nat × Option Mac))) = .ok out ∧
      out.length = (hosts_from_network 0xC0A80000 30).length ∧
      List.Perm out ((hosts_from_network 0xC0A80000 30).map
        (resolveTarget fun _ => .ok none)) := by
  have hh : hosts_from_network 0xC0A80000 30 = [0xC0A80001, 0xC0A80002] := by decide
  refine scan_cidr_one_result_per_host 0xC0A80000 30 0 (fun _ => .ok none) _ ?_
  simp only [ScanCidrOutcome, hh]
  rw [if_neg (by simp)]
  refine ⟨[(0xC0A80001, none), (0xC0A80002, none)], ?_, rfl⟩
  have hstreams : workerStreams (fun _ => (.ok none : Except ArpError (Option Mac)))
      [0xC0A80001, 0xC0A80002] 0 = [[(0xC0A80001, none), (0xC0A80002, none)]] := by
    unfold workerStreams workerChunks
    norm_num
    simp [chunksOf, resolveTarget]
  rw [hstreams]
  exact Sched.step [] [] _ [(0xC0A80002, none)] [(0xC0A80002, none)]
    (Sched.step [] [] _ [] [] (Sched.done _ (by simp)))

/-- C9: a malformed CIDR (parse failure) makes `scan_cidr` return the
invalid-cidr error immediately, with no sweep work; and it is the only
input-parse condition that aborts: every outcome under a successfully
parsed CIDR is an `Ok` result. -/
theorem scan_cidr_invalid_cidr_only_abort (workers : Nat)
    (resolve : Nat → Except ArpError (Option Mac))
    (res : Except String (List (Nat × Option Mac))) :
    (ScanCidrOutcome none workers resolve res → res = .error "invalid cidr") ∧
    (∀ base plen, ScanCidrOutcome (some (base, plen)) workers resolve res →
      ∃ out, res = .ok out) := by
  refine ⟨fun h => h, fun base plen h => ?_⟩
  unfold ScanCidrOutcome at h
  by_cases hemp : hosts_from_network base plen = []
  · simp only [hemp, if_pos rfl] at h
    exact ⟨[], h⟩
  · simp only [if_neg hemp] at h
    obtain ⟨out, _, hres⟩ := h
    exact ⟨out, hres⟩

/-- C9 witness: the error outcome at a parse failure, and the `Ok` outcome
for the parsed `192.168.0.0/30`. -/
theorem scan_cidr_invalid_cidr_only_abort_witness :
    (Except.error "invalid cidr" : Except String (List (Nat × Option Mac)))
      = .error "invalid cidr" :=
  (scan_cidr_invalid_cidr_only_abort 4 (fun _ => .ok none) _).1 rfl

/-! ## String model lemmas -/

theorem keepChar_ascii (c : Char) (h : keepChar c = true) :
    c.toNat ≤ 0x7F ∧ utf8Len c = 1 := by
  have h1 : c.toNat ≤ 0x7F := by
    have := (Bool.and_eq_true _ _).mp h |>.1
    simpa using this
  exact ⟨h1, by simp [utf8Len, h1]⟩

theorem takeWhile_eq_self_of_all (p : Char → Bool) (l : List Char)
    (h : ∀ c ∈ l, p c = true) : l.takeWhile p = l :=
  List.takeWhile_eq_self_iff.mpr h

theorem dropWhile_eq_self_of_head (p : Char → Bool) (l : List Char)
    (h : ∀ c, l.head? = some c → p c = false) : l.dropWhile p = l := by
  cases l with
  | nil => rfl
  | cons a t => simp [List.dropWhile_cons, h a rfl]

theorem mem_of_getLast?_eq (l : List Char) (a : Char) (h : l.getLast? = some a) :
    a ∈ l := by
  obtain ⟨hne, rfl⟩ := List.mem_getLast?_eq_getLast (l := l) (x := a) (by simp [h])
  exact List.getLast_mem hne

theorem rustTrim_eq_self_of_ends (l : List Char)
    (hh : ∀ c, l.head? = some c → isRustWhitespace c = false)
    (hl : ∀ c, l.getLast? = some c → isRustWhitespace c = false) :
    rustTrim l = l := by
  unfold rustTrim
  rw [dropWhile_eq_self_of_head _ _ hh,
    dropWhile_eq_self_of_head _ _ (fun c hc => hl c (by rwa [← List.head?_reverse])),
    List.reverse_reverse]

theorem byteLen_append (l₁ l₂ : List Char) :
    byteLen (l₁ ++ l₂) = byteLen l₁ + byteLen l₂ := by
  simp [byteLen]

theorem length_le_byteLen (l : List Char) : l.length ≤ byteLen l := by
  induction l with
  | nil => simp [byteLen]
  | cons c cs ih =>
    have hc : 1 ≤ utf8Len c := by
      unfold utf8Len
      repeat' split <;> norm_num
    simp only [List.length_cons, byteLen, List.map_cons, List.sum_cons]
    simp only [byteLen] at ih
    omega

theorem byteLen_takeBytes_le (n : Nat) (l : List Char) :
    byteLen (takeBytes n l) ≤ n := by
  induction l generalizing n with
  | nil => simp [takeBytes, byteLen]
  | cons c cs ih =>
    simp only [takeBytes]
    split
    · rename_i hc
      simp only [byteLen, List.map_cons, List.sum_cons]
      have := ih (n - utf8Len c)
      simp only [byteLen] at this
      omega
    · simp [byteLen]

theorem byteLen_eq_length_of_ascii (l : List Char) (h : ∀ c ∈ l, utf8Len c = 1) :
    byteLen l = l.length := by
  induction l with
  | nil => rfl
  | cons c cs ih =>
    simp only [byteLen, List.map_cons, List.sum_cons, h c (by simp)] at *
    rw [ih fun x hx => h x (by simp [hx])]
    simp [Nat.add_comm]

theorem takeBytes_eq_take (n : Nat) (l : List Char) (h : ∀ c ∈ l, utf8Len c = 1) :
    takeBytes n l = l.take n := by
  induction l generalizing n with
  | nil => simp [takeBytes]
  | cons c cs ih =>
    simp only [takeBytes, h c (by simp)]
    cases n with
    | zero => simp
    | succ m =>
      rw [if_pos (by omega)]
      simp only [Nat.add_sub_cancel]
      rw [List.take_succ_cons, ih m fun x hx => h x (by simp [hx])]

theorem splitWs_nil : splitWs [] = [] := by rw [splitWs]

theorem splitWs_cons_ws (c : Char) (cs : List Char) (h : isRustWhitespace c = true) :
    splitWs (c :: cs) = splitWs cs := by
  rw [splitWs]
  simp [h]

theorem splitWs_cons_word (c : Char) (cs : List Char) (h : isRustWhitespace c = false) :
    splitWs (c :: cs) = ((c :: cs).takeWhile fun d => !isRustWhitespace d)
      :: splitWs ((c :: cs).dropWhile fun d => !isRustWhitespace d) := by
  rw [splitWs]
  simp [h]

theorem splitWs_words (l : List Char) : ∀ w ∈ splitWs l,
    w ≠ [] ∧ ∀ c ∈ w, c ∈ l ∧ isRustWhitespace c = false := by
  match l with
  | [] => simp [splitWs_nil]
  | c :: cs =>
    cases hc : isRustWhitespace c with
    | true =>
      rw [splitWs_cons_ws c cs hc]
      intro w hw
      obtain ⟨hne, hmem⟩ := splitWs_words cs w hw
      exact ⟨hne, fun x hx => ⟨by simp [(hmem x hx).1], (hmem x hx).2⟩⟩
    | false =>
      rw [splitWs_cons_word c cs hc]
      intro w hw
      rcases List.mem_cons.mp hw with rfl | hw'
      · refine ⟨by simp [List.takeWhile_cons, hc], fun x hx => ?_⟩
        refine ⟨(List.takeWhile_sublist _).subset hx, ?_⟩
        have := List.mem_takeWhile_imp hx
        simpa using this
      · obtain ⟨hne, hmem⟩ :=
          splitWs_words ((c :: cs).dropWhile fun d => !isRustWhitespace d) w hw'
        exact ⟨hne, fun x hx =>
          ⟨(List.dropWhile_sublist _).subset ((hmem x hx).1), (hmem x hx).2⟩⟩
termination_by l.length
decreasing_by
  · have hlen := (List.dropWhile_sublist (l := cs) fun d => !isRustWhitespace d).length_le
    have heq : List.dropWhile (fun d => !isRustWhitespace d) (c :: cs)
        = List.dropWhile (fun d => !isRustWhitespace d) cs := by
      simp [List.dropWhile_cons, hc]
    simp only [heq, List.length_cons]
    omega
  · simp

theorem rustJoin_nil (sep : List Char) : rustJoin sep [] = [] := rfl

theorem rustJoin_singleton (sep w : List Char) : rustJoin sep [w] = w := rfl

theorem rustJoin_cons₂ (sep w w' : List Char) (ws : List (List Char)) :
    rustJoin sep (w :: w' :: ws) = w ++ sep ++ rustJoin sep (w' :: ws) := rfl

theorem splitDelim_cons (p : Char → Bool) (c : Char) (cs : List Char) :
    splitDelim p (c :: cs)
      = if p c then [] :: splitDelim p cs
        else
          match splitDelim p cs with
          | [] => [[c]]
          | h :: t => (c :: h) :: t := rfl

theorem mem_rustJoin (sep : List Char) (ws : List (List Char)) (c : Char)
    (h : c ∈ rustJoin sep ws) : c ∈ sep ∨ ∃ w ∈ ws, c ∈ w := by
  induction ws with
  | nil => simp [rustJoin_nil] at h
  | cons w ws ih =>
    cases ws with
    | nil =>
      rw [rustJoin_singleton] at h
      exact Or.inr ⟨w, by simp, h⟩
    | cons w' ws' =>
      rw [rustJoin_cons₂] at h
      simp only [List.append_assoc, List.mem_append] at h
      rcases h with h | h | h
      · exact Or.inr ⟨w, by simp, h⟩
      · exact Or.inl h
      · rcases ih h with h' | ⟨u, hu, hc⟩
        · exact Or.inl h'
        · exact Or.inr ⟨u, by simp [hu], hc⟩

theorem takeWhile_append_all (p : Char → Bool) (w l : List Char)
    (hw : ∀ c ∈ w, p c = true) : (w ++ l).takeWhile p = w ++ l.takeWhile p := by
  induction w with
  | nil => rfl
  | cons a t ih =>
    rw [List.cons_append, List.takeWhile_cons_of_pos (hw a (by simp)),
      ih fun c hc => hw c (by simp [hc]), List.cons_append]

theorem dropWhile_append_all (p : Char → Bool) (w l : List Char)
    (hw : ∀ c ∈ w, p c = true) : (w ++ l).dropWhile p = l.dropWhile p := by
  induction w with
  | nil => rfl
  | cons a t ih =>
    rw [List.cons_append, List.dropWhile_cons_of_pos (hw a (by simp)),
      ih fun c hc => hw c (by simp [hc])]

theorem dropWhile_eq_nil_of_all (p : Char → Bool) (l : List Char)
    (h : ∀ c ∈ l, p c = true) : l.dropWhile p = [] := by
  induction l with
  | nil => rfl
  | cons a t ih =>
    rw [List.dropWhile_cons_of_pos (h a (by simp))]
    exact ih fun c hc => h c (by simp [hc])

theorem splitWs_rustJoin (ws : List (List Char))
    (hgood : ∀ w ∈ ws, w ≠ [] ∧ ∀ c ∈ w, isRustWhitespace c = false) :
    splitWs (rustJoin [' '] ws) = ws := by
  induction ws with
  | nil => exact splitWs_nil
  | cons w ws ih =>
    obtain ⟨hwne, hwfree⟩ := hgood w (by simp)
    obtain ⟨c, rest, rfl⟩ : ∃ c rest, w = c :: rest := by
      cases w with
      | nil => exact absurd rfl hwne
      | cons a b => exact ⟨a, b, rfl⟩
    have hc : isRustWhitespace c = false := hwfree c (by simp)
    have hresttrue : ∀ d ∈ rest, (!isRustWhitespace d) = true :=
      fun d hd => by simp [hwfree d (by simp [hd])]
    cases ws with
    | nil =>
      rw [rustJoin_singleton, splitWs_cons_word c rest hc,
        takeWhile_eq_self_of_all _ _ (fun d hd => by simp [hwfree d hd]),
        dropWhile_eq_nil_of_all _ _ (fun d hd => by simp [hwfree d hd]), splitWs_nil]
    | cons w' ws' =>
      rw [rustJoin_cons₂]
      have hshape : (c :: rest) ++ [' '] ++ rustJoin [' '] (w' :: ws')
          = c :: (rest ++ ' ' :: rustJoin [' '] (w' :: ws')) := by simp
      rw [hshape, splitWs_cons_word c _ hc]
      have htake : List.takeWhile (fun d => !isRustWhitespace d)
          (c :: (rest ++ ' ' :: rustJoin [' '] (w' :: ws'))) = c :: rest := by
        rw [List.takeWhile_cons_of_pos (by simp [hc]), takeWhile_append_all _ _ _ hresttrue,
          List.takeWhile_cons_of_neg (by decide)]
        simp
      have hdrop : List.dropWhile (fun d => !isRustWhitespace d)
          (c :: (rest ++ ' ' :: rustJoin [' '] (w' :: ws')))
          = ' ' :: rustJoin [' '] (w' :: ws') := by
        rw [List.dropWhile_cons_of_pos (by simp [hc]), dropWhile_append_all _ _ _ hresttrue,
          List.dropWhile_cons_of_neg (by decide)]
      rw [htake, hdrop, splitWs_cons_ws _ _ (by decide),
        ih fun u hu => hgood u (by simp [hu])]

theorem rustJoin_ne_nil (ws : List (List Char)) (hne : ws ≠ [])
    (hw : ∀ w ∈ ws, w ≠ []) : rustJoin [' '] ws ≠ [] := by
  cases ws with
  | nil => exact absurd rfl hne
  | cons w ws' =>
    cases ws' with
    | nil =>
      rw [rustJoin_singleton]
      exact hw w (by simp)
    | cons w'' ws'' =>
      rw [rustJoin_cons₂]
      simp

theorem mem_of_head?_eq (l : List Char) (a : Char) (h : l.head? = some a) : a ∈ l := by
  cases l with
  | nil => simp at h
  | cons c t =>
    simp only [List.head?_cons, Option.some.injEq] at h
    simp [← h]

theorem rustJoin_good_head (ws : List (List Char))
    (hgood : ∀ w ∈ ws, w ≠ [] ∧ ∀ c ∈ w, isRustWhitespace c = false) :
    ∀ c, (rustJoin [' '] ws).head? = some c → isRustWhitespace c = false := by
  cases ws with
  | nil => simp [rustJoin_nil]
  | cons w ws' =>
    obtain ⟨hwne, hwfree⟩ := hgood w (by simp)
    cases ws' with
    | nil =>
      rw [rustJoin_singleton]
      exact fun c hc => hwfree c (mem_of_head?_eq _ _ hc)
    | cons w'' ws'' =>
      rw [rustJoin_cons₂, List.append_assoc, List.head?_append_of_ne_nil _ hwne]
      exact fun c hc => hwfree c (mem_of_head?_eq _ _ hc)

theorem rustJoin_good_last (ws : List (List Char))
    (hgood : ∀ w ∈ ws, w ≠ [] ∧ ∀ c ∈ w, isRustWhitespace c = false) :
    ∀ c, (rustJoin [' '] ws).getLast? = some c → isRustWhitespace c = false := by
  induction ws with
  | nil => simp [rustJoin_nil]
  | cons w ws' ih =>
    cases ws' with
    | nil =>
      rw [rustJoin_singleton]
      exact fun c hc => (hgood w (by simp)).2 c (mem_of_getLast?_eq _ _ hc)
    | cons w'' ws'' =>
      have hgood' : ∀ u ∈ w'' :: ws'', u ≠ [] ∧ ∀ c ∈ u, isRustWhitespace c = false :=
        fun u hu => hgood u (by simp [hu])
      have hJne : rustJoin [' '] (w'' :: ws'') ≠ [] :=
        rustJoin_ne_nil _ (by simp) fun u hu => (hgood' u hu).1
      intro c hc
      rw [rustJoin_cons₂, List.append_assoc,
        List.getLast?_append_of_ne_nil _ (by simp),
        List.getLast?_append_of_ne_nil _ hJne] at hc
      exact ih hgood' c hc

theorem mem_collapsedOf (s : List Char) (c : Char) (h : c ∈ collapsedOf s) :
    keepChar c = true ∧ (isRustWhitespace c = true → c = ' ') := by
  unfold collapsedOf at h
  rcases mem_rustJoin _ _ _ h with hsep | ⟨w, hw, hcw⟩
  · have hc : c = ' ' := by simpa using hsep
    subst hc
    exact ⟨by decide, fun _ => rfl⟩
  · obtain ⟨hne, hmem⟩ := splitWs_words _ w hw
    obtain ⟨hmemf, hws⟩ := hmem c hcw
    have hk : keepChar c = true := (List.mem_filter.mp hmemf).2
    exact ⟨hk, fun hws' => absurd hws' (by simp [hws])⟩

theorem take_rustJoin_good : ∀ ws : List (List Char),
    (∀ w ∈ ws, w ≠ [] ∧ ∀ c ∈ w, isRustWhitespace c = false) →
    ∀ n : Nat, ((rustJoin [' '] ws).take n).getLast? ≠ some ' ' →
    ∃ ws', (∀ w ∈ ws', w ≠ [] ∧ ∀ c ∈ w, isRustWhitespace c = false) ∧
      (rustJoin [' '] ws).take n = rustJoin [' '] ws' := by
  intro ws
  induction ws with
  | nil => exact fun _ n _ => ⟨[], by simp, by simp [rustJoin_nil]⟩
  | cons w ws ih =>
    intro hgood n hlast
    have hwgood := hgood w (by simp)
    cases ws with
    | nil =>
      rw [rustJoin_singleton] at hlast ⊢
      by_cases hn : n = 0
      · exact ⟨[], by simp, by simp [hn, rustJoin_nil]⟩
      · refine ⟨[w.take n], ?_, (rustJoin_singleton _ _).symm⟩
        intro u hu
        simp only [List.mem_singleton] at hu
        subst hu
        refine ⟨?_, fun c hc => hwgood.2 c ((List.take_sublist _ _).subset hc)⟩
        cases w with
        | nil => exact absurd rfl hwgood.1
        | cons a t =>
          cases n with
          | zero => exact absurd rfl hn
          | succ m => simp
    | cons w' ws' =>
      have hJgood : ∀ u ∈ w' :: ws', u ≠ [] ∧ ∀ c ∈ u, isRustWhitespace c = false :=
        fun u hu => hgood u (by simp [hu])
      have hJne : rustJoin [' '] (w' :: ws') ≠ [] :=
        rustJoin_ne_nil _ (by simp) fun u hu => (hJgood u hu).1
      have hsplit : rustJoin [' '] (w :: w' :: ws')
          = w ++ (' ' :: rustJoin [' '] (w' :: ws')) := by
        rw [rustJoin_cons₂]
        simp
      have htake : (rustJoin [' '] (w :: w' :: ws')).take n
          = w.take n ++ (' ' :: rustJoin [' '] (w' :: ws')).take (n - w.length) := by
        rw [hsplit, List.take_append_eq_append_take]
      by_cases hn : n ≤ w.length
      · have h0 : n - w.length = 0 := by omega
        rw [htake, h0, List.take_zero, List.append_nil] at hlast ⊢
        by_cases hn0 : n = 0
        · exact ⟨[], by simp, by simp [hn0, rustJoin_nil]⟩
        · refine ⟨[w.take n], ?_, (rustJoin_singleton _ _).symm⟩
          intro u hu
          simp only [List.mem_singleton] at hu
          subst hu
          refine ⟨?_, fun c hc => hwgood.2 c ((List.take_sublist _ _).subset hc)⟩
          cases w with
          | nil => exact absurd rfl hwgood.1
          | cons a t =>
            cases n with
            | zero => exact absurd rfl hn0
            | succ m => simp
      · have hwtake : w.take n = w := List.take_of_length_le (by omega)
        obtain ⟨m, hm⟩ : ∃ m, n - w.length = m + 1 := ⟨n - w.length - 1, by omega⟩
        rw [htake, hwtake, hm, List.take_succ_cons] at hlast ⊢
        by_cases hm0 : m = 0
        · rw [hm0, List.take_zero] at hlast
          exact absurd (List.getLast?_concat w) hlast
        · have hJtakene : (rustJoin [' '] (w' :: ws')).take m ≠ [] := by
            cases hJ : rustJoin [' '] (w' :: ws') with
            | nil => exact absurd hJ hJne
            | cons a t =>
              cases m with
              | zero => exact absurd rfl hm0
              | succ k => simp
          have hlast' : ((rustJoin [' '] (w' :: ws')).take m).getLast? ≠ some ' ' := by
            rw [List.getLast?_append_of_ne_nil _ (by simp),
              show (' ' :: (rustJoin [' '] (w' :: ws')).take m)
                  = [' '] ++ (rustJoin [' '] (w' :: ws')).take m from rfl,
              List.getLast?_append_of_ne_nil _ hJtakene] at hlast
            exact hlast
          obtain ⟨ws'', hgood'', heq⟩ := ih hJgood m hlast'
          have hws''ne : ws'' ≠ [] := by
            intro hcon
            rw [hcon, rustJoin_nil] at heq
            exact hJtakene heq
          obtain ⟨u, us, rfl⟩ : ∃ u us, ws'' = u :: us := by
            cases ws'' with
            | nil => exact absurd rfl hws''ne
            | cons u us => exact ⟨u, us, rfl⟩
          refine ⟨w :: u :: us, ?_, ?_⟩
          · intro v hv
            rcases List.mem_cons.mp hv with rfl | hv'
            · exact hwgood
            · exact hgood'' v hv'
          · rw [rustJoin_cons₂, heq]
            simp

theorem collapsedOf_eq_self (t : List Char)
    (hk : ∀ c ∈ t, keepChar c = true) (ws' : List (List Char))
    (hgood : ∀ w ∈ ws', w ≠ [] ∧ ∀ c ∈ w, isRustWhitespace c = false)
    (ht : t = rustJoin [' '] ws') : collapsedOf t = t := by
  subst ht
  unfold collapsedOf
  rw [rustTrim_eq_self_of_ends _ (rustJoin_good_head ws' hgood)
      (rustJoin_good_last ws' hgood),
    List.filter_eq_self.mpr hk, splitWs_rustJoin ws' hgood]

theorem normalize_banner_eq (s : List Char) :
    normalize_banner s = if 200 < byteLen (collapsedOf s)
      then takeBytes 200 (collapsedOf s) else collapsedOf s := rfl

theorem normalize_banner_eq_self_of (x : List Char)
    (h1 : collapsedOf x = x) (h2 : byteLen x ≤ 200) : normalize_banner x = x := by
  rw [normalize_banner_eq, h1, if_neg (by omega)]

/-! ## MAC round-trip lemmas -/

theorem dropWhile_eq_self_of_all (p : Char → Bool) (l : List Char)
    (h : ∀ c ∈ l, p c = false) : l.dropWhile p = l := by
  cases l with
  | nil => rfl
  | cons a t => simp [List.dropWhile_cons, h a (by simp)]

theorem rustTrim_eq_self_of_no_ws (l : List Char)
    (h : ∀ c ∈ l, isRustWhitespace c = false) : rustTrim l = l := by
  unfold rustTrim
  rw [dropWhile_eq_self_of_all _ _ h,
    dropWhile_eq_self_of_all _ _ (fun c hc => h c (List.mem_reverse.mp hc)),
    List.reverse_reverse]

theorem splitDelim_free_append (p : Char → Bool) (w l : List Char)
    (hw : ∀ c ∈ w, p c = false) (h : List Char) (t : List (List Char))
    (hl : splitDelim p l = h :: t) : splitDelim p (w ++ l) = (w ++ h) :: t := by
  induction w with
  | nil => simpa using hl
  | cons a w ih =>
    have ha : p a = false := hw a (by simp)
    have ih' := ih fun c hc => hw c (by simp [hc])
    rw [List.cons_append, splitDelim_cons, if_neg (by simp [ha]), ih']
    rfl

theorem splitDelim_rustJoin (p : Char → Bool) (d : Char) (hd : p d = true)
    (parts : List (List Char)) (hfree : ∀ w ∈ parts, ∀ c ∈ w, p c = false)
    (hne : parts ≠ []) : splitDelim p (rustJoin [d] parts) = parts := by
  induction parts with
  | nil => exact absurd rfl hne
  | cons w ws ih =>
    cases ws with
    | nil =>
      have := splitDelim_free_append p w [] (fun c hc => hfree w (by simp) c hc)
        [] [] rfl
      simpa [rustJoin_singleton] using this
    | cons w' ws' =>
      have hrest : splitDelim p (rustJoin [d] (w' :: ws')) = w' :: ws' :=
        ih (fun u hu c hc => hfree u (by simp [hu]) c hc) (by simp)
      have hd1 : splitDelim p (d :: rustJoin [d] (w' :: ws')) = [] :: w' :: ws' := by
        rw [splitDelim_cons, if_pos hd, hrest]
      have := splitDelim_free_append p w (d :: rustJoin [d] (w' :: ws'))
        (fun c hc => hfree w (by simp) c hc) [] (w' :: ws') hd1
      rw [rustJoin_cons₂]
      simpa using this

theorem hexDigit_not_special : ∀ n : Fin 16,
    isRustWhitespace (hexDigit n.val) = false ∧
    ((hexDigit n.val == ':') || (hexDigit n.val == '-')) = false ∧
    (hexDigit n.val == '+') = false := by decide

set_option maxRecDepth 8192 in
theorem parseByteHex_formatByteHex : ∀ b : Fin 256,
    parseByteHex (formatByteHex b.val) = some b.val := by decide

theorem parseMacParts_format (m : List Nat) (hm : ∀ b ∈ m, b < 256) :
    parseMacParts (m.map formatByteHex) = some m := by
  induction m with
  | nil => rfl
  | cons b bs ih =>
    have hb := parseByteHex_formatByteHex ⟨b, hm b (by simp)⟩
    simp only [List.map_cons, parseMacParts, hb,
      ih fun x hx => hm x (by simp [hx])]

theorem mem_formatByteHex (b : Nat) (hb : b < 256) (c : Char)
    (hc : c ∈ formatByteHex b) : ∃ n : Fin 16, c = hexDigit n.val := by
  simp only [formatByteHex, List.mem_cons, List.mem_singleton] at hc
  rcases hc with h | h | h
  · exact ⟨⟨b / 16, by omega⟩, h⟩
  · exact ⟨⟨b % 16, by omega⟩, h⟩
  · simp at h

theorem parse_mac_format_mac_general (d : Char) (hdws : isRustWhitespace d = false)
    (hdp : ((d == ':') || (d == '-')) = true) (m : List Nat)
    (hm : ∀ b ∈ m, b < 256) (hlen : m.length = 6) :
    parse_mac (format_mac d m) = some m := by
  have hfree : ∀ w ∈ m.map formatByteHex, ∀ c ∈ w,
      ((c == ':') || (c == '-')) = false := by
    intro w hw c hc
    obtain ⟨b, hb, rfl⟩ := List.mem_map.mp hw
    obtain ⟨n, rfl⟩ := mem_formatByteHex b (hm b hb) c hc
    exact (hexDigit_not_special n).2.1
  have hnows : ∀ c ∈ rustJoin [d] (m.map formatByteHex), isRustWhitespace c = false := by
    intro c hc
    rcases mem_rustJoin _ _ _ hc with h | ⟨w, hw, hcw⟩
    · simp only [List.mem_singleton] at h
      exact h ▸ hdws
    · obtain ⟨b, hb, rfl⟩ := List.mem_map.mp hw
      obtain ⟨n, rfl⟩ := mem_formatByteHex b (hm b hb) c hcw
      exact (hexDigit_not_special n).1
  simp only [parse_mac, format_mac]
  rw [rustTrim_eq_self_of_no_ws _ hnows,
    splitDelim_rustJoin _ d hdp _ hfree
      (by cases m with | nil => simp at hlen | cons a t => simp),
    if_pos (by simp [hlen]), parseMacParts_format m hm]

/-! ## Theorems about MAC parsing -/

/-- C7: formatting any 6-byte MAC with two lowercase hex digits per byte,
with either the colon or the hyphen delimiter, and parsing it back with
`parse_mac` recovers exactly the original bytes. -/
theorem parse_mac_format_mac_roundtrip (b0 b1 b2 b3 b4 b5 : Fin 256) :
    parse_mac (format_mac ':' [b0.val, b1.val, b2.val, b3.val, b4.val, b5.val])
      = some [b0.val, b1.val, b2.val, b3.val, b4.val, b5.val] ∧
    parse_mac (format_mac '-' [b0.val, b1.val, b2.val, b3.val, b4.val, b5.val])
      = some [b0.val, b1.val, b2.val, b3.val, b4.val, b5.val] := by
  have hm : ∀ b ∈ [b0.val, b1.val, b2.val, b3.val, b4.val, b5.val], b < 256 := by
    intro b hb
    simp only [List.mem_cons, List.not_mem_nil, or_false] at hb
    rcases hb with rfl | rfl | rfl | rfl | rfl | rfl
    · exact b0.isLt
    · exact b1.isLt
    · exact b2.isLt
    · exact b3.isLt
    · exact b4.isLt
    · exact b5.isLt
  exact ⟨parse_mac_format_mac_general ':' (by decide) (by decide) _ hm rfl,
    parse_mac_format_mac_general '-' (by decide) (by decide) _ hm rfl⟩

/-! ## Theorems about the MAC Resolver -/

/-- C5: `ensure_mac` returns `Ok` on every path — external-tool failures
are absorbed inside `lookup_mac` and the probe steps — and in particular,
when the neighbour table yields nothing and active probing is disabled,
it returns `Ok(None)` rather than an error. -/
theorem ensure_mac_never_errors (env : ArpEnv) (performProbe : Bool) :
    (∃ r, ensure_mac env performProbe = .ok r) ∧
    (lookup_mac env.firstLookup = none → performProbe = false →
      ensure_mac env performProbe = .ok none) := by
  constructor
  · unfold ensure_mac
    cases h1 : lookup_mac env.firstLookup with
    | some m => exact ⟨some m, rfl⟩
    | none =>
      cases performProbe with
      | false => exact ⟨none, rfl⟩
      | true =>
        cases h2 : env.arping with
        | some m => exact ⟨some m, rfl⟩
        | none =>
          cases h3 : lookup_mac env.afterPing with
          | some m => exact ⟨some m, rfl⟩
          | none => exact ⟨none, rfl⟩
  · intro h1 h2
    unfold ensure_mac
    rw [h1, h2]
    rfl

/-- C5 witness: an empty neighbour table and probing disabled — the call
returns `Ok(None)`, not an error. -/
theorem ensure_mac_never_errors_witness :
    (∃ r, ensure_mac ⟨⟨none, none, none⟩, none, ⟨none, none, none⟩⟩ false = .ok r) ∧
    ensure_mac ⟨⟨none, none, none⟩, none, ⟨none, none, none⟩⟩ false = .ok none :=
  ⟨(ensure_mac_never_errors ⟨⟨none, none, none⟩, none, ⟨none, none, none⟩⟩ false).1,
    (ensure_mac_never_errors ⟨⟨none, none, none⟩, none, ⟨none, none, none⟩⟩ false).2 rfl rfl⟩

/-! ## Theorems about the Raw Frame Transport -/

/-- C3: from the receiver-owned state, a timeout yields `Ok(None)` (not an
error) and leaves the receiver on loan; from then on every further
`recv_with_timeout` call — whatever the raced receive would produce —
returns the receiver-unavailable error and leaves the state unchanged, and
that error is distinct from the transport's ordinary receive-failure
errors. -/
theorem recv_with_timeout_loan (s : RawSocketState) (hinit : s.rxHeld = true) :
    recv_with_timeout s .timeout = (⟨false⟩, .ok none) ∧
    (∀ ev, recv_with_timeout ⟨false⟩ ev
      = (⟨false⟩, .error (.recvError "Receiver already taken"))) ∧
    (∀ msg, (RawSocketError.recvError "Receiver already taken")
      ≠ .recvError ("recv error: " ++ msg)) := by
  refine ⟨by simp [recv_with_timeout, hinit], fun ev => rfl, fun msg h => ?_⟩
  have h2 : "Receiver already taken" = "recv error: " ++ msg := by
    injection h
  have h3 := congrArg String.data h2
  rw [String.data_append] at h3
  have e1 : "Receiver already taken".data
      = ['R', 'e', 'c', 'e', 'i', 'v', 'e', 'r', ' ', 'a', 'l', 'r', 'e', 'a', 'd', 'y',
         ' ', 't', 'a', 'k', 'e', 'n'] := rfl
  have e2 : "recv error: ".data
      = ['r', 'e', 'c', 'v', ' ', 'e', 'r', 'r', 'o', 'r', ':', ' '] := rfl
  rw [e1, e2] at h3
  simp at h3

/-- C3 witness: the timeout transition at the concrete initial state. -/
theorem recv_with_timeout_loan_witness :
    recv_with_timeout ⟨true⟩ .timeout = (⟨false⟩, .ok none) :=
  (recv_with_timeout_loan ⟨true⟩ rfl).1

/-! ## Theorems about the Port Scanner -/

/-- C4: `scan_host_ports` returns exactly one `PortResult` per requested
port, in order (closed ports included); every port whose connect fails or
times out yields `open = false`, no banner and no rtt; and an empty port
list yields the empty result list. -/
theorem scan_host_ports_one_result_per_port (env : ProbeEnv) (ports : List Nat) :
    (scan_host_ports env ports).length = ports.length ∧
    (scan_host_ports env ports).map PortResult.port = ports ∧
    (∀ p ∈ ports, env p = none →
      probe_port env p = ⟨p, "tcp", false, none, none⟩ ∧
      probe_port env p ∈ scan_host_ports env ports) ∧
    (ports = [] → scan_host_ports env ports = []) := by
  refine ⟨by simp [scan_host_ports], ?_, fun p hp hnone => ?_, fun h => by
    simp [scan_host_ports, h]⟩
  · simp only [scan_host_ports, List.map_map]
    have hport : PortResult.port ∘ probe_port env = id := by
      funext p
      show (probe_port env p).port = p
      unfold probe_port
      cases henv : env p with
      | none => rfl
      | some pr =>
        obtain ⟨readRes, rtt⟩ := pr
        rfl
    rw [hport, List.map_id]
  · exact ⟨by simp [probe_port, hnone], List.mem_map_of_mem _ hp⟩

/-- C4 witness: one closed port. -/
theorem scan_host_ports_one_result_per_port_witness :
    probe_port (fun _ => none) 22 = ⟨22, "tcp", false, none, none⟩ ∧
    probe_port (fun _ => none) 22 ∈ scan_host_ports (fun _ => none) [22] :=
  (scan_host_ports_one_result_per_port (fun _ => none) [22]).2.2.1 22 (by simp) rfl

/-- C8 counterexample: a zero-length reply datagram arrives within the
timeout (`reply = some []`), but `probe_udp` reports absence rather than
a present reply with its (empty) raw bytes: the `n > 0` guard filters
empty datagrams out. -/
theorem probe_udp_empty_reply_cex :
    probe_udp ⟨true, some []⟩ 3221225985 = (3221225985, none) ∧
    (3221225985, (none : Option (List Nat))) ≠ (3221225985, some ([] : List Nat)) := by
  exact ⟨rfl, by simp⟩

/-- C8 (amended): the UDP probe sends one empty datagram from an
ephemeral socket and waits up to the timeout; a reply of at least one
byte is reported present with its raw bytes (truncated to the 1500-byte
receive buffer); no reply within the timeout is reported as absence
without error; a zero-length reply is likewise reported as absence. -/
theorem probe_udp_spec_amended (env : UdpEnv) (ip : Nat) :
    (env.bindOk = true → ∀ payload, env.reply = some payload → payload ≠ [] →
      probe_udp env ip = (ip, some (payload.take 1500))) ∧
    (env.reply = none → probe_udp env ip = (ip, none)) ∧
    (env.reply = some [] → probe_udp env ip = (ip, none)) := by
  refine ⟨fun hb payload hr hne => ?_, fun hr => ?_, fun hr => ?_⟩
  · have hlen : 0 < payload.length := List.length_pos.mpr hne
    simp [probe_udp, hb, hr, hlen]
  · cases hb : env.bindOk <;> simp [probe_udp, hr, hb]
  · cases hb : env.bindOk <;> simp [probe_udp, hr, hb]

/-- C8 witness: a one-byte reply is reported with its bytes; the
probe at a bind with no reply reports absence. -/
theorem probe_udp_spec_amended_witness :
    probe_udp ⟨true, some [5]⟩ 1 = (1, some [5]) ∧
    probe_udp ⟨true, none⟩ 1 = (1, none) :=
  ⟨(probe_udp_spec_amended ⟨true, some [5]⟩ 1).1 rfl [5] rfl (by simp),
    (probe_udp_spec_amended ⟨true, none⟩ 1).2.1 rfl⟩

/-! ## Theorems about banner normalisation -/

/-- C10: every char of the collapsed intermediate string is ASCII, so its
byte length equals its char length, the byte index 200 always falls on a
char boundary, and the guarded slice of `normalize_banner` is the plain
200-char prefix — the function is total on all Unicode input. -/
theorem normalize_banner_ascii_safe (s : List Char) :
    (collapsedOf s).all (fun c => decide (c.toNat ≤ 0x7F)) = true ∧
    byteLen (collapsedOf s) = (collapsedOf s).length ∧
    takeBytes 200 (collapsedOf s) = (collapsedOf s).take 200 ∧
    normalize_banner s
      = (if 200 < byteLen (collapsedOf s) then (collapsedOf s).take 200
         else collapsedOf s) := by
  have hascii : ∀ c ∈ collapsedOf s, utf8Len c = 1 :=
    fun c hc => (keepChar_ascii c (mem_collapsedOf s c hc).1).2
  refine ⟨List.all_eq_true.mpr fun c hc => ?_,
    byteLen_eq_length_of_ascii _ hascii, takeBytes_eq_take _ _ hascii, ?_⟩
  · simpa using (keepChar_ascii c (mem_collapsedOf s c hc).1).1
  · rw [normalize_banner_eq, takeBytes_eq_take _ _ hascii]

/-- C6 counterexample: for the input of 199 `a`s, a space and `bb`, the
collapsed string has 202 bytes, so it is truncated at byte 200 — right
after the separator space — leaving a banner that ends in a space;
normalising again trims that space, so `normalize(normalize(s)) ≠
normalize(s)`. -/
theorem normalize_banner_not_idempotent_cex :
    normalize_banner (normalize_banner (List.replicate 199 'a' ++ [' ', 'b', 'b']))
      ≠ normalize_banner (List.replicate 199 'a' ++ [' ', 'b', 'b']) := by
  have hrepne : (List.replicate 199 'a' : List Char) ≠ [] := by
    intro h
    have := congrArg List.length h
    simp only [List.length_replicate, List.length_nil] at this
    omega
  have hgood0 : ∀ w ∈ [List.replicate 199 'a', ['b', 'b']],
      w ≠ [] ∧ ∀ c ∈ w, isRustWhitespace c = false := by
    intro w hw
    rcases List.mem_cons.mp hw with rfl | hw'
    · refine ⟨hrepne, fun c hc => ?_⟩
      rw [List.eq_of_mem_replicate hc]
      decide
    · simp only [List.mem_singleton] at hw'
      subst hw'
      exact ⟨by simp, by decide⟩
  have hrj : rustJoin [' '] [List.replicate 199 'a', ['b', 'b']]
      = List.replicate 199 'a' ++ [' ', 'b', 'b'] := by
    rw [rustJoin_cons₂, rustJoin_singleton, List.append_assoc]
    rfl
  have hk0 : ∀ c ∈ List.replicate 199 'a' ++ [' ', 'b', 'b'], keepChar c = true := by
    intro c hc
    rcases List.mem_append.mp hc with h | h
    · rw [List.eq_of_mem_replicate h]
      decide
    · simp only [List.mem_cons, List.not_mem_nil, or_false] at h
      rcases h with rfl | rfl | rfl <;> decide
  have hcoll0 : collapsedOf (List.replicate 199 'a' ++ [' ', 'b', 'b'])
      = List.replicate 199 'a' ++ [' ', 'b', 'b'] :=
    collapsedOf_eq_self _ hk0 [List.replicate 199 'a', ['b', 'b']] hgood0 hrj.symm
  have h199 : byteLen (List.replicate 199 'a') = 199 := by
    unfold byteLen
    rw [List.map_replicate, show utf8Len 'a' = 1 from rfl, List.sum_replicate,
      smul_eq_mul]
  have hbl : byteLen (List.replicate 199 'a' ++ [' ', 'b', 'b']) = 202 := by
    rw [byteLen_append, h199]
    rfl
  have hascii0 : ∀ c ∈ List.replicate 199 'a' ++ [' ', 'b', 'b'], utf8Len c = 1 :=
    fun c hc => (keepChar_ascii c (hk0 c hc)).2
  have hnorm1 : normalize_banner (List.replicate 199 'a' ++ [' ', 'b', 'b'])
      = List.replicate 199 'a' ++ [' '] := by
    rw [normalize_banner_eq, hcoll0, hbl, if_pos (by norm_num),
      takeBytes_eq_take _ _ hascii0, List.take_append_eq_append_take,
      List.take_of_length_le (by rw [List.length_replicate]; omega),
      List.length_replicate]
    rfl
  have hheada : ∀ c, (List.replicate 199 'a' : List Char).head? = some c →
      isRustWhitespace c = false := by
    intro c hc
    rw [show (List.replicate 199 'a' : List Char).head? = some 'a' from rfl] at hc
    simp only [Option.some.injEq] at hc
    rw [← hc]
    decide
  have htrim : rustTrim (List.replicate 199 'a' ++ [' ']) = List.replicate 199 'a' := by
    unfold rustTrim
    rw [show List.dropWhile isRustWhitespace (List.replicate 199 'a' ++ [' '])
        = List.replicate 199 'a' ++ [' '] from
      dropWhile_eq_self_of_head _ _ (fun c hc => by
        rw [List.head?_append_of_ne_nil _ hrepne] at hc
        exact hheada c hc)]
    rw [List.reverse_append, show ([' '] : List Char).reverse = [' '] from rfl,
      List.reverse_replicate, List.singleton_append,
      List.dropWhile_cons_of_pos (by decide),
      show List.dropWhile isRustWhitespace (List.replicate 199 'a')
          = List.replicate 199 'a' from dropWhile_eq_self_of_head _ _ hheada]
    exact List.reverse_replicate 199 'a'
  have hgood1 : ∀ w ∈ [List.replicate 199 'a'],
      w ≠ [] ∧ ∀ c ∈ w, isRustWhitespace c = false := by
    intro w hw
    simp only [List.mem_singleton] at hw
    subst hw
    refine ⟨hrepne, fun c hc => ?_⟩
    rw [List.eq_of_mem_replicate hc]
    decide
  have hsplit2 : splitWs (List.replicate 199 'a') = [List.replicate 199 'a'] := by
    have := splitWs_rustJoin [List.replicate 199 'a'] hgood1
    rwa [rustJoin_singleton] at this
  have hcoll2 : collapsedOf (List.replicate 199 'a' ++ [' '])
      = List.replicate 199 'a' := by
    unfold collapsedOf
    rw [htrim, List.filter_eq_self.mpr (fun c hc => by
        rw [List.eq_of_mem_replicate hc]
        decide),
      hsplit2, rustJoin_singleton]
  have hnorm2 : normalize_banner (List.replicate 199 'a' ++ [' '])
      = List.replicate 199 'a' := by
    rw [normalize_banner_eq, hcoll2, h199, if_neg (by norm_num)]
  rw [hnorm1, hnorm2]
  intro hcon
  have := congrArg List.length hcon
  simp only [List.length_append, List.length_replicate, List.length_cons,
    List.length_nil] at this
  omega

/-- C6 (amended): `normalize_banner` always yields at most 200 bytes (and
at most 200 chars), and it is idempotent on every input whose normalised
form does not end in a space — a trailing space can arise only when the
truncation at byte 200 cuts immediately after a word boundary, and in
that single case the second application removes the trailing space. -/
theorem normalize_banner_bounded_idempotent (s : List Char) :
    byteLen (normalize_banner s) ≤ 200 ∧ (normalize_banner s).length ≤ 200 ∧
    ((normalize_banner s).getLast? ≠ some ' ' →
      normalize_banner (normalize_banner s) = normalize_banner s) := by
  have hascii : ∀ c ∈ collapsedOf s, utf8Len c = 1 :=
    fun c hc => (keepChar_ascii c (mem_collapsedOf s c hc).1).2
  have hkeep : ∀ c ∈ collapsedOf s, keepChar c = true :=
    fun c hc => (mem_collapsedOf s c hc).1
  have hgood : ∀ w ∈ splitWs ((rustTrim s).filter keepChar),
      w ≠ [] ∧ ∀ c ∈ w, isRustWhitespace c = false :=
    fun w hw => ⟨(splitWs_words _ w hw).1,
      fun c hc => ((splitWs_words _ w hw).2 c hc).2⟩
  have hbound : byteLen (normalize_banner s) ≤ 200 := by
    rw [normalize_banner_eq]
    split
    · exact byteLen_takeBytes_le 200 _
    · omega
  refine ⟨hbound, le_trans (length_le_byteLen _) hbound, fun hlast => ?_⟩
  obtain ⟨n, hn⟩ : ∃ n, normalize_banner s = (collapsedOf s).take n := by
    rw [normalize_banner_eq]
    split
    · exact ⟨200, takeBytes_eq_take _ _ hascii⟩
    · exact ⟨(collapsedOf s).length, (List.take_length _).symm⟩
  have hCrj : collapsedOf s
      = rustJoin [' '] (splitWs ((rustTrim s).filter keepChar)) := rfl
  obtain ⟨ws', hgood', heq⟩ := take_rustJoin_good _ hgood n (by
    rw [← hCrj, ← hn]
    exact hlast)
  have ht : normalize_banner s = rustJoin [' '] ws' := by
    rw [hn, hCrj, heq]
  have hkt : ∀ c ∈ normalize_banner s, keepChar c = true := by
    intro c hc
    rw [hn] at hc
    exact hkeep c ((List.take_sublist _ _).subset hc)
  exact normalize_banner_eq_self_of _
    (collapsedOf_eq_self _ hkt ws' hgood' ht) hbound

/-- C6 witness: at the short input `ab` the normalised banner is `ab`
itself, its length is within 200, and normalisation is idempotent. -/
theorem normalize_banner_bounded_idempotent_witness :
    byteLen (normalize_banner ['a', 'b']) ≤ 200 ∧
    (normalize_banner ['a', 'b']).length ≤ 200 ∧
    normalize_banner (normalize_banner ['a', 'b']) = normalize_banner ['a', 'b'] := by
  have hab : normalize_banner ['a', 'b'] = ['a', 'b'] :=
    normalize_banner_eq_self_of _
      (collapsedOf_eq_self _ (by decide) [['a', 'b']] (by decide) rfl) (by decide)
  have h := normalize_banner_bounded_idempotent ['a', 'b']
  exact ⟨h.1, h.2.1, h.2.2 (by rw [hab]; decide)⟩

end NetScan
